import Mathlib

/-!
Shallow embedding of the `pools` library core (Pool / Query / Selectors / Binder)
from `src/Query.ts`, `src/Selectors.ts`, `src/Binder.ts` and the `Pool` class
source embedded in the repository README, together with proofs about the
specification claims.

Modelling conventions:
* JS plain objects holding integer values are association lists
  `List (String × Int)`; property lookup is first-match lookup.
* Machine numbers used as counts/indices are `Int` (JS numbers in the relevant
  code paths are integral); `Infinity` as the default limit is `Option.none`.
* `null`/`undefined` results are `Option.none`.
* Randomness (`Math.random()`) is an explicit parameter `r` with `0 ≤ r < 1`.
* Events emitted by pool operations are returned as an explicit trace list.
-/

namespace Pools

/-- A JS metadata object (`Record<string, any>` with numeric values),
modelled as an association list; property access is first-match lookup. -/
abbrev Meta := List (String × Int)

/-- A JS plain data object with numeric fields, modelled as an association list. -/
abbrev JsObj := List (String × Int)

/-- JS property read `o[k]`: the value at the first matching key, else `undefined`. -/
def jsLookup (o : List (String × Int)) (k : String) : Option Int :=
  (o.find? (fun p => p.1 == k)).map Prod.snd

/-- `PoolEntry<T>` from `src/types.ts`: user data plus a metadata bag. -/
structure Entry (α : Type) where
  data : α
  meta : Meta
deriving DecidableEq

/-- `Filter<T>` from `src/types.ts`. -/
abbrev Filter (α : Type) := Entry α → Bool

/-- `Selector<T>` from `src/types.ts`: picks an entry or returns `null`. -/
abbrev Selector (α : Type) := List (Entry α) → Option (Entry α)

/-- Sort order argument of `Query.orderBy`. -/
inductive SortOrder where
  | asc
  | desc
deriving DecidableEq

/-- The `Query<T>` builder state from `src/Query.ts`: the captured entries
array, the conjunctive filter list, the comparator list, and the pagination
counters (`offsetCount` defaults to `0`, `limitCount` to `Infinity = none`). -/
structure Query (α : Type) where
  entries : List (Entry α)
  filters : List (Entry α → Bool) := []
  sorters : List (Entry α → Entry α → Int) := []
  offsetCount : Int := 0
  limitCount : Option Int := none

/-- `Query.where`: pushes a filter (named `whereFilter` because `where` is a
Lean keyword). -/
def Query.whereFilter (q : Query α) (f : Entry α → Bool) : Query α :=
  { q with filters := q.filters ++ [f] }

/-- `Query.whereOr`: pushes a single filter that is the OR (`Array.some`)
of the given filters. -/
def Query.whereOr (q : Query α) (fs : List (Entry α → Bool)) : Query α :=
  { q with filters := q.filters ++ [fun e => fs.any (fun f => f e)] }

/-- The comparator built by the field form of `Query.orderBy` (lines 59-65 of
`src/Query.ts`), with `data[field]` embedded as a projection `get`. -/
def fieldCmp (get : α → Int) (ord : SortOrder) (a b : Entry α) : Int :=
  let aVal := get a.data
  let bVal := get b.data
  let comparison : Int := if aVal < bVal then -1 else if bVal < aVal then 1 else 0
  match ord with
  | .asc => comparison
  | .desc => -comparison

/-- `Query.orderBy` (field form): pushes the field comparator. -/
def Query.orderByField (q : Query α) (get : α → Int) (ord : SortOrder) : Query α :=
  { q with sorters := q.sorters ++ [fieldCmp get ord] }

/-- `Query.orderBy` (comparator form): pushes the given comparator. -/
def Query.orderByCmp (q : Query α) (f : Entry α → Entry α → Int) : Query α :=
  { q with sorters := q.sorters ++ [f] }

/-- `Query.offset`: overwrites the offset counter. -/
def Query.offset (q : Query α) (count : Int) : Query α :=
  { q with offsetCount := count }

/-- `Query.limit`: overwrites the limit counter. -/
def Query.limit (q : Query α) (count : Int) : Query α :=
  { q with limitCount := some count }

/-- Sequential application of the filter list (`for (const filter of
this.filters) result = result.filter(filter)`). -/
def applyFilters (fs : List (Entry α → Bool)) (l : List (Entry α)) : List (Entry α) :=
  fs.foldl (fun res f => res.filter f) l

/-- The combined comparator of `materialize`: first nonzero sorter result wins. -/
def chainCmp : List (Entry α → Entry α → Int) → Entry α → Entry α → Int
  | [], _, _ => 0
  | s :: rest, a, b =>
    let comparison := s a b
    if comparison ≠ 0 then comparison else chainCmp rest a b

/-- `Array.prototype.slice(start, end)` on integral JS numbers, with
`end = none` standing for `Infinity`. -/
def jsSlice (l : List α) (s : Int) (e? : Option Int) : List α :=
  let len : Int := l.length
  let s1 : Int := if s < 0 then max (len + s) 0 else min s len
  let e1 : Int := match e? with
    | none => len
    | some e => if e < 0 then max (len + e) 0 else min e len
  (l.drop s1.toNat).take (e1 - s1).toNat

/-- The filter-then-sort part of `Query.materialize` (the local `result`
before pagination).  JS `Array.prototype.sort` is stable, embedded as
`mergeSort` on "comparator result ≤ 0". -/
def Query.preSlice (q : Query α) : List (Entry α) :=
  let result := applyFilters q.filters q.entries
  if q.sorters.isEmpty then result
  else result.mergeSort (fun a b => decide (chainCmp q.sorters a b ≤ 0))

/-- `Query.materialize`: filter, sort, then paginate via
`slice(offsetCount, offsetCount + limitCount)` when pagination is active. -/
def Query.materialize (q : Query α) : List (Entry α) :=
  let result := q.preSlice
  if q.offsetCount > 0 ∨ q.limitCount ≠ none then
    jsSlice result q.offsetCount (q.limitCount.map (fun lim => q.offsetCount + lim))
  else result

/-- `Query.select`: materialize, apply the selector, return its data or `null`. -/
def Query.select (q : Query α) (sel : Selector α) : Option α :=
  (sel q.materialize).map Entry.data

/-- `Query.toArray`: the data of the materialized entries. -/
def Query.toArray (q : Query α) : List α :=
  q.materialize.map Entry.data

/-- `Query.count`: number of entries after filters only. -/
def Query.count (q : Query α) : Nat :=
  (applyFilters q.filters q.entries).length

/-- Events emitted by pool operations (observable trace of `emit`). -/
inductive Evt where
  | add
  | set
  | get
  | remove
  | batchAdd
  | batchRemove
deriving DecidableEq

/-- The `Pool<T>` entry sequence (value-level model; reference-level aspects
are modelled separately below). -/
structure Pool (α : Type) where
  entries : List (Entry α)
deriving DecidableEq

/-- `Pool.add`: append a fresh entry, emit `add`, return the entry. -/
def Pool.add (p : Pool α) (d : α) (m : Meta) : Entry α × Pool α × List Evt :=
  let entry : Entry α := ⟨d, m⟩
  (entry, ⟨p.entries ++ [entry]⟩, [Evt.add])

/-- `Pool.query`: a fresh query over the pool's entries. -/
def Pool.query (p : Pool α) : Query α :=
  { entries := p.entries }

/-- `Query.toPool`: re-add each materialized entry's data and meta into a new pool. -/
def Query.toPool (q : Query α) : Pool α :=
  q.materialize.foldl (fun p e => (p.add e.data e.meta).2.1) ⟨[]⟩

/-- `Selectors.first` from `src/Selectors.ts`: the first candidate or `null`. -/
def Selectors.first (es : List (Entry α)) : Option (Entry α) :=
  es.head?

/-- `Selectors.last`: the last candidate or `null`. -/
def Selectors.last (es : List (Entry α)) : Option (Entry α) :=
  es.getLast?

/-- `Selectors.random`: `entries[Math.floor(r * entries.length)] ?? null`,
with the `Math.random()` draw `r` passed explicitly. -/
def Selectors.random (r : ℚ) (es : List (Entry α)) : Option (Entry α) :=
  if es.length = 0 then none
  else es[(⌊r * (es.length : ℚ)⌋).toNat]?

/-- JS `<` on possibly-undefined numeric values: any comparison involving
`undefined` is false. -/
def jsLt : Option Int → Option Int → Bool
  | some a, some b => decide (a < b)
  | _, _ => false

/-- The field resolution of `Selectors.minBy`:
`(entry.data)[field] ?? (entry.meta)[field]`. -/
def fieldVal (field : String) (e : Entry JsObj) : Option Int :=
  match jsLookup e.data field with
  | some v => some v
  | none => jsLookup e.meta field

/-- `Selectors.minBy(field)`: `entries.reduce` keeping the entry whose
resolved field value is strictly smaller than the current minimum's. -/
def Selectors.minBy (field : String) (es : List (Entry JsObj)) : Option (Entry JsObj) :=
  match es with
  | [] => none
  | e :: rest =>
    some (rest.foldl (fun mn entry =>
      if jsLt (fieldVal field entry) (fieldVal field mn) then entry else mn) e)

/-- The integer key underlying `minBy` when every candidate's field resolves
to a defined value. -/
def minKey (field : String) (e : Entry JsObj) : Int :=
  (fieldVal field e).getD 0

/-- Strict-min-keeping fold (the abstract shape of the `minBy` reduce). -/
def minKeep (key : β → Int) (acc : β) (l : List β) : β :=
  l.foldl (fun mn e => if key e < key mn then e else mn) acc

/-- The cumulative-subtraction walk of `Selectors.weighted`: subtract each
weight from the running draw, returning the first entry where it goes
non-positive. -/
def weightedGo (w : Entry α → ℚ) : ℚ → List (Entry α) → Option (Entry α)
  | _, [] => none
  | rem, e :: rest =>
    let rem1 := rem - w e
    if rem1 ≤ 0 then some e else weightedGo w rem1 rest

/-- `Selectors.weighted(weightFn)`: total the weights; on zero total fall back
to `Selectors.random`; otherwise walk with the draw `r * totalWeight`; the
`entries[entries.length - 1] ?? null` fallback is `getLast?`. -/
def Selectors.weighted (w : Entry α → ℚ) (r : ℚ) (es : List (Entry α)) : Option (Entry α) :=
  if es.length = 0 then none
  else
    let weights := es.map w
    let totalWeight := weights.foldl (· + ·) 0
    if totalWeight = 0 then Selectors.random r es
    else
      match weightedGo w (r * totalWeight) es with
      | some e => some e
      | none => es.getLast?

/-- JS object spread `{ ...a, ...b }` at value level: keys of `a` not
overridden by `b`, then `b`. -/
def mergeMeta (a b : Meta) : Meta :=
  a.filter (fun p => !(b.any (fun q => q.1 == p.1))) ++ b

/-- The find-and-update-in-place part of `Pool.set`: locate the first entry
with `entry.data[key] === value`, replace its data and merge the metadata. -/
def setGo (key : String) (value : Int) (d : JsObj) (m : Meta) :
    List (Entry JsObj) → Option (Entry JsObj × List (Entry JsObj))
  | [] => none
  | e :: rest =>
    if jsLookup e.data key == some value then
      let e1 : Entry JsObj := ⟨d, mergeMeta e.meta m⟩
      some (e1, e1 :: rest)
    else
      (setGo key value d m rest).map (fun pr => (pr.1, e :: pr.2))

/-- `Pool.set`: update the first matching entry in place (emitting `set`),
or fall through to `Pool.add` (emitting `add`). -/
def Pool.set (p : Pool JsObj) (key : String) (value : Int) (d : JsObj) (m : Meta) :
    Entry JsObj × Pool JsObj × List Evt :=
  match setGo key value d m p.entries with
  | some (e1, l) => (e1, ⟨l⟩, [Evt.set])
  | none => p.add d m

/-- `Pool.union` with the default comparator (`JSON.stringify` equality,
i.e. structural equality of the data): push each entry of `other` whose data
has no equal counterpart in the current (growing) entry list. -/
def Pool.union [DecidableEq α] (p other : Pool α) : Pool α :=
  ⟨other.entries.foldl (fun acc oe =>
    if ∃ e ∈ acc, e.data = oe.data then acc else acc ++ [oe]) p.entries⟩

/-- The `Binder` state from `src/Binder.ts`: named pools in binding order,
plus the per-name filter lists and optional selectors. -/
structure Binder (α : Type) where
  pools : List (String × Pool α)
  filters : String → List (Entry α → Bool)
  selectors : String → Option (Selector α)

/-- One iteration of `Binder.execute`: build the query from all filters
registered for the name, then select with the pool's selector, defaulting to
`Selectors.first`. -/
def bindingSelect (b : Binder α) (name : String) (pool : Pool α) : Option α :=
  let q := (b.filters name).foldl (fun q f => q.whereFilter f) pool.query
  q.select ((b.selectors name).getD Selectors.first)

/-- The loop of `Binder.execute`: process bound pools in order, failing the
whole call as soon as one selection is `null`. -/
def executeGo (b : Binder α) : List (String × Pool α) → Option (List (String × α))
  | [] => some []
  | (n, p) :: rest =>
    match bindingSelect b n p with
    | none => none
    | some d => (executeGo b rest).map (fun r => (n, d) :: r)

/-- `Binder.execute`. -/
def Binder.execute (b : Binder α) : Option (List (String × α)) :=
  executeGo b b.pools

/-- A data shape with two integer fields `a` and `b`, the shape over which
the sort-priority claim is stated. -/
structure TwoField where
  a : Int
  b : Int
deriving DecidableEq

/-- The sorter list registered by `orderBy(a, asc)` then `orderBy(b, desc)`. -/
def abSorters : List (Entry TwoField → Entry TwoField → Int) :=
  [fieldCmp TwoField.a .asc, fieldCmp TwoField.b .desc]

/-- The boolean "precedes or ties" relation the stable sort of `materialize`
uses for that sorter list. -/
def abLe (x y : Entry TwoField) : Bool :=
  decide (chainCmp abSorters x y ≤ 0)

end Pools

namespace MetaRef

/-!
Reference-level model of metadata ownership: a metadata object is an address
into a heap of metadata bags.  `Pool.add(data, meta)` stores the *reference*
it is given (`const entry = { data, meta }` in the Pool source), and
`Query.toPool` re-adds `entry.meta` itself, so addresses are what flows.
-/

/-- An entry holding a reference (heap address) to its metadata object. -/
structure Entry where
  data : Pools.JsObj
  meta : Nat
deriving DecidableEq

/-- The metadata heap: address to metadata bag. -/
abbrev Heap := Nat → Pools.Meta

/-- A pool in the reference-level model. -/
structure Pool where
  entries : List Entry

/-- `Pool.add`: stores the given data and metadata reference unchanged. -/
def Pool.add (p : Pool) (d : Pools.JsObj) (m : Nat) : Pool :=
  ⟨p.entries ++ [⟨d, m⟩]⟩

/-- `pool.query().toPool()` with no filters/sorts/pagination: materialize is
the entry list itself, and each entry's data and metadata reference is
re-added into a fresh pool (`pool.add(entry.data, entry.meta)`). -/
def Pool.queryToPool (p : Pool) : Pool :=
  p.entries.foldl (fun np e => np.add e.data e.meta) ⟨[]⟩

/-- JS property write `metaObject[k] = v` through a metadata reference:
update the heap at that address (prepend overrides first-match lookup). -/
def writeMeta (h : Heap) (addr : Nat) (k : String) (v : Int) : Heap :=
  fun a => if a = addr then (k, v) :: h a else h a

end MetaRef

namespace ArrRef

/-!
Reference-level model of the entries array: a pool holds the address of an
entries array on a heap of arrays; `query()` captures that address
(`new Query(this.entries)`), `add` pushes into the array in place, while
`remove` allocates a fresh filtered array and repoints the pool at it
(`this.entries = this.entries.filter(...)`).
-/

/-- Mutable state: the array heap, the pool-to-array table, and the
allocation frontier (all addresses in use are below `next`). -/
structure St (α : Type) where
  arrays : Nat → List (Pools.Entry α)
  poolArr : Nat → Nat
  next : Nat

/-- A pool object, identified by its id. -/
structure PoolR where
  pid : Nat

/-- A query holding the address of the entries array it was built over,
plus its filter list. -/
structure QueryR (α : Type) where
  arr : Nat
  filters : List (Pools.Entry α → Bool) := []

/-- `Pool.query`: captures a reference to the pool's current entries array. -/
def PoolR.query (p : PoolR) (s : St α) : QueryR α :=
  { arr := s.poolArr p.pid }

/-- `Query.materialize` with no sorters/pagination: the filters applied to
the current contents of the captured array. -/
def QueryR.materialize (q : QueryR α) (s : St α) : List (Pools.Entry α) :=
  Pools.applyFilters q.filters (s.arrays q.arr)

/-- `Pool.add`: push the new entry into the pool's current array in place. -/
def PoolR.add (p : PoolR) (s : St α) (d : α) (m : Pools.Meta) : St α :=
  let a := s.poolArr p.pid
  { s with arrays := fun x => if x = a then s.arrays a ++ [⟨d, m⟩] else s.arrays x }

/-- `Pool.remove`: build a fresh filtered array (a new allocation), repoint
the pool at it, and return the removed entries; the old array is untouched. -/
def PoolR.remove (p : PoolR) (s : St α) (pred : α → Bool) : St α × List (Pools.Entry α) :=
  let a := s.poolArr p.pid
  let kept := (s.arrays a).filter (fun e => !pred e.data)
  let removed := (s.arrays a).filter (fun e => pred e.data)
  ({ arrays := fun x => if x = s.next then kept else s.arrays x,
     poolArr := fun x => if x = p.pid then s.next else s.poolArr x,
     next := s.next + 1 }, removed)

end ArrRef

namespace Pools

theorem applyFilters_append (a b : List (Entry α → Bool)) (l : List (Entry α)) :
    applyFilters (a ++ b) l = applyFilters b (applyFilters a l) :=
  List.foldl_append ..

theorem jsSlice_nil (s : Int) (e? : Option Int) : jsSlice ([] : List α) s e? = [] := by
  simp [jsSlice]

theorem preSlice_of_filtered_nil (q : Query α) (h : applyFilters q.filters q.entries = []) :
    q.preSlice = [] := by
  unfold Query.preSlice
  rw [h]
  split <;> simp

theorem materialize_of_preSlice_nil (q : Query α) (h : q.preSlice = []) :
    q.materialize = [] := by
  unfold Query.materialize
  rw [h]
  split
  · exact jsSlice_nil _ _
  · rfl

theorem toPool_entries (q : Query α) :
    (q.toPool).entries = q.materialize := by
  unfold Query.toPool
  generalize q.materialize = l
  suffices h : ∀ (l : List (Entry α)) (acc : List (Entry α)),
      (l.foldl (fun (p : Pool α) e => (p.add e.data e.meta).2.1) ⟨acc⟩).entries = acc ++ l by
    simpa using h l []
  intro l
  induction l with
  | nil => intro acc; simp
  | cons e rest ih =>
    intro acc
    calc (List.foldl (fun (p : Pool α) e => (p.add e.data e.meta).2.1) ⟨acc⟩ (e :: rest)).entries
        = (List.foldl (fun (p : Pool α) e => (p.add e.data e.meta).2.1) ⟨acc ++ [e]⟩ rest).entries :=
          rfl
      _ = (acc ++ [e]) ++ rest := ih (acc ++ [e])
      _ = acc ++ e :: rest := by simp

theorem whereOr_empty_filtered (q : Query α) :
    applyFilters (q.whereOr []).filters (q.whereOr []).entries = [] := by
  show applyFilters (q.filters ++ [fun e => ([] : List (Entry α → Bool)).any (fun f => f e)])
      q.entries = []
  rw [applyFilters_append]
  simp [applyFilters]

/-- C10: calling `whereOr` with an empty list of predicates synthesizes an OR
over zero predicates, which rejects every entry, so every subsequent
materializing call (`toArray`, `select`, `toPool`) returns an empty/absent
result and `count` is zero. -/
theorem whereOr_empty_rejects_all (q : Query α) :
    (q.whereOr []).materialize = [] ∧
    (q.whereOr []).toArray = [] ∧
    ((q.whereOr []).toPool).entries = [] ∧
    (q.whereOr []).count = 0 ∧
    (∀ sel : Selector α, sel [] = none → (q.whereOr []).select sel = none) := by
  have hf := whereOr_empty_filtered q
  have hm : (q.whereOr []).materialize = [] :=
    materialize_of_preSlice_nil _ (preSlice_of_filtered_nil _ hf)
  refine ⟨hm, ?_, ?_, ?_, ?_⟩
  · unfold Query.toArray
    rw [hm]
    rfl
  · rw [toPool_entries, hm]
  · unfold Query.count
    rw [hf]
    rfl
  · intro sel hsel
    unfold Query.select
    rw [hm, hsel]
    rfl

/-- Witness for C10 at a concrete one-entry pool with the `first` selector. -/
theorem whereOr_empty_rejects_all_witness :
    ((Pool.mk (α := JsObj) [⟨[("id", 1)], []⟩]).query.whereOr []).toArray = [] ∧
    ((Pool.mk (α := JsObj) [⟨[("id", 1)], []⟩]).query.whereOr []).select Selectors.first = none :=
  ⟨(whereOr_empty_rejects_all _).2.1,
   (whereOr_empty_rejects_all _).2.2.2.2 Selectors.first rfl⟩

theorem jsSlice_self (l : List α) (s : Int) : jsSlice l s (some s) = [] := by
  unfold jsSlice
  simp

theorem jsSlice_of_len_le (l : List α) (s : Int) (e? : Option Int)
    (h : (l.length : Int) ≤ s) : jsSlice l s e? = [] := by
  unfold jsSlice
  have hs : ¬ s < 0 := by omega
  have hmin : min s (l.length : Int) = (l.length : Int) := by omega
  simp only [if_neg hs, hmin, Int.toNat_natCast, List.drop_length, List.take_nil]

theorem limit_preSlice (q : Query α) (n : Int) : (q.limit n).preSlice = q.preSlice := rfl

theorem offset_preSlice (q : Query α) (k : Int) : (q.offset k).preSlice = q.preSlice := rfl

/-- C2 (amended): `take(0)` makes every materialize-based call (`toArray`,
`select`, `toPool`) yield an empty/absent result without error; `offset`
with a count at or beyond the filtered/sorted sequence length yields an
empty result, not an error; but a negative take count is NOT clamped to
empty: per JS `slice`, the end index `offset + n` counts back from the end
of the sequence, yielding the first `length + n` entries (clamped at zero). -/
theorem pagination_spec (q : Query α) :
    ((q.limit 0).materialize = [] ∧
      (q.limit 0).toArray = [] ∧
      ((q.limit 0).toPool).entries = [] ∧
      (∀ sel : Selector α, sel [] = none → (q.limit 0).select sel = none)) ∧
    (∀ k : Int, (q.preSlice.length : Int) ≤ k → (q.offset k).materialize = []) ∧
    (∀ n : Int, n < 0 →
      ((q.offset 0).limit n).materialize
        = q.preSlice.take ((q.preSlice.length : Int) + n).toNat) := by
  refine ⟨?_, ?_, ?_⟩
  · have hm : (q.limit 0).materialize = [] := by
      unfold Query.materialize
      rw [limit_preSlice]
      have hcond : (q.limit 0).offsetCount > 0 ∨ (q.limit 0).limitCount ≠ none := by
        right
        exact fun h => Option.noConfusion h
      rw [if_pos hcond]
      show jsSlice q.preSlice q.offsetCount (some (q.offsetCount + 0)) = []
      rw [show q.offsetCount + 0 = q.offsetCount by omega]
      exact jsSlice_self _ _
    refine ⟨hm, ?_, ?_, ?_⟩
    · unfold Query.toArray
      rw [hm]
      rfl
    · rw [toPool_entries, hm]
    · intro sel hsel
      unfold Query.select
      rw [hm, hsel]
      rfl
  · intro k hk
    unfold Query.materialize
    rw [offset_preSlice]
    by_cases hcond : (q.offset k).offsetCount > 0 ∨ (q.offset k).limitCount ≠ none
    · rw [if_pos hcond]
      exact jsSlice_of_len_le _ _ _ hk
    · rw [if_neg hcond]
      push_neg at hcond
      have hk0 : k ≤ 0 := hcond.1
      have : (q.preSlice.length : Int) = 0 := by omega
      have : q.preSlice.length = 0 := by omega
      exact List.length_eq_zero.mp this
  · intro n hn
    unfold Query.materialize
    rw [show ((q.offset 0).limit n).preSlice = q.preSlice from rfl]
    have hcond : ((q.offset 0).limit n).offsetCount > 0 ∨ ((q.offset 0).limit n).limitCount ≠ none := by
      right
      exact fun h => Option.noConfusion h
    rw [if_pos hcond]
    show jsSlice q.preSlice 0 (some ((0 : Int) + n))
        = q.preSlice.take ((q.preSlice.length : Int) + n).toNat
    unfold jsSlice
    have h0 : ¬ (0 : Int) < 0 := by omega
    have hmin : min (0 : Int) (q.preSlice.length : Int) = 0 := by
      have : (0 : Int) ≤ q.preSlice.length := by positivity
      omega
    have hneg : (0 : Int) + n < 0 := by omega
    simp only [if_neg h0, hmin, if_pos hneg]
    have harith : (max ((q.preSlice.length : Int) + (0 + n)) 0 - 0).toNat
        = ((q.preSlice.length : Int) + n).toNat := by omega
    rw [harith]
    simp

/-- Witness for C2 (amended) at a concrete two-entry pool. -/
theorem pagination_spec_witness :
    ((Pool.mk (α := JsObj) [⟨[("id", 1)], []⟩, ⟨[("id", 2)], []⟩]).query.limit 0).toArray = [] ∧
    ((Pool.mk (α := JsObj) [⟨[("id", 1)], []⟩, ⟨[("id", 2)], []⟩]).query.offset 5).materialize = [] ∧
    ((Pool.mk (α := JsObj) [⟨[("id", 1)], []⟩, ⟨[("id", 2)], []⟩]).query.limit 0).select
      Selectors.first = none :=
  ⟨(pagination_spec _).1.2.1,
   (pagination_spec _).2.1 5 (by decide),
   (pagination_spec _).1.2.2.2 Selectors.first rfl⟩

/-- C2 counterexample: on a two-entry pool, `limit(-1)` does NOT clamp to an
empty result — JS `slice(0, -1)` keeps the first entry, refuting "a negative
take count is clamped to zero/empty". -/
theorem limit_neg_not_empty_cex :
    ((Pool.mk (α := JsObj) [⟨[("id", 1)], []⟩, ⟨[("id", 2)], []⟩]).query.limit (-1)).toArray
      = [[("id", 1)]] ∧
    ((Pool.mk (α := JsObj) [⟨[("id", 1)], []⟩, ⟨[("id", 2)], []⟩]).query.limit (-1)).toArray
      ≠ [] := by
  constructor <;> decide

theorem foldl_whereFilter (fs : List (Entry α → Bool)) (q0 : Query α) :
    fs.foldl (fun q f => q.whereFilter f) q0 = { q0 with filters := q0.filters ++ fs } := by
  induction fs generalizing q0 with
  | nil => simp
  | cons f rest ih =>
    rw [List.foldl_cons, ih]
    simp [Query.whereFilter, List.append_assoc]

theorem materialize_plain (entries : List (Entry α)) (fs : List (Entry α → Bool)) :
    (Query.mk entries fs [] 0 none).materialize = applyFilters fs entries := by
  unfold Query.materialize Query.preSlice
  simp

theorem bindingSelect_eq (b : Binder α) (n : String) (p : Pool α) :
    bindingSelect b n p
      = (((b.selectors n).getD Selectors.first) (applyFilters (b.filters n) p.entries)).map
          Entry.data := by
  unfold bindingSelect
  rw [show p.query = Query.mk p.entries [] [] 0 none from rfl, foldl_whereFilter]
  show (Query.mk p.entries ([] ++ b.filters n) [] 0 none).select
      ((b.selectors n).getD Selectors.first) = _
  unfold Query.select
  rw [List.nil_append, materialize_plain]

theorem executeGo_eq_none_iff (b : Binder α) (l : List (String × Pool α)) :
    executeGo b l = none ↔ ∃ np ∈ l, bindingSelect b np.1 np.2 = none := by
  induction l with
  | nil => simp [executeGo]
  | cons np rest ih =>
    obtain ⟨n, p⟩ := np
    cases h : bindingSelect b n p with
    | none =>
      simp only [executeGo, h]
      exact iff_of_true trivial ⟨(n, p), List.mem_cons_self (n, p) rest, h⟩
    | some d =>
      simp only [executeGo, h, Option.map_eq_none', ih, List.mem_cons]
      constructor
      · rintro ⟨x, hx, hsel⟩
        exact ⟨x, Or.inr hx, hsel⟩
      · rintro ⟨x, hx | hx, hsel⟩
        · rw [hx] at hsel
          rw [hsel] at h
          cases h
        · exact ⟨x, hx, hsel⟩

theorem executeGo_some_forall2 (b : Binder α) (l : List (String × Pool α))
    (r : List (String × α)) (h : executeGo b l = some r) :
    List.Forall₂ (fun (np : String × Pool α) (rv : String × α) =>
      np.1 = rv.1 ∧ bindingSelect b np.1 np.2 = some rv.2) l r := by
  induction l generalizing r with
  | nil =>
    have h2 : (some [] : Option (List (String × α))) = some r := h
    rw [← Option.some_inj.mp h2]
    exact List.Forall₂.nil
  | cons np rest ih =>
    obtain ⟨n, p⟩ := np
    cases hsel : bindingSelect b n p with
    | none =>
      simp only [executeGo, hsel] at h
      exact Option.noConfusion h
    | some d =>
      simp only [executeGo, hsel] at h
      rcases Option.map_eq_some'.mp h with ⟨r1, hr1, hr⟩
      subst hr
      exact List.Forall₂.cons ⟨rfl, hsel⟩ (ih r1 hr1)

/-- C1: `Binder.execute` processes the bound pools in binding order, building
each query from all filters registered for the name and applying the pool's
selector (defaulting to `first`); it returns absent iff some bound pool's
selection is absent (no partial result), a successful execution pairs each
bound name with exactly one selected data value in binding order, and a
binder with zero bound pools returns an empty, non-absent mapping. -/
theorem binder_execute_spec (b : Binder α) :
    (b.pools = [] → b.execute = some []) ∧
    (b.execute = none ↔ ∃ np ∈ b.pools, bindingSelect b np.1 np.2 = none) ∧
    (∀ r, b.execute = some r →
      List.Forall₂ (fun (np : String × Pool α) (rv : String × α) =>
        np.1 = rv.1 ∧ bindingSelect b np.1 np.2 = some rv.2) b.pools r) ∧
    (∀ n p, b.selectors n = none →
      bindingSelect b n p
        = (Selectors.first (applyFilters (b.filters n) p.entries)).map Entry.data) := by
  refine ⟨?_, ?_, ?_, ?_⟩
  · intro h
    unfold Binder.execute
    rw [h]
    rfl
  · exact executeGo_eq_none_iff b b.pools
  · exact fun r h => executeGo_some_forall2 b b.pools r h
  · intro n p h
    rw [bindingSelect_eq, h]
    rfl

/-- Witness for C1: an empty binder yields `some []`; a one-pool binder with
no filters and no selector yields the first entry's data. -/
theorem binder_execute_spec_witness :
    (⟨[], fun _ => [], fun _ => none⟩ : Binder JsObj).execute = some [] ∧
    List.Forall₂ (fun (np : String × Pool JsObj) (rv : String × JsObj) =>
      np.1 = rv.1 ∧
        bindingSelect (⟨[("a", ⟨[⟨[("id", 1)], []⟩]⟩)], fun _ => [], fun _ => none⟩ : Binder JsObj)
          np.1 np.2 = some rv.2)
      [("a", ⟨[⟨[("id", 1)], []⟩]⟩)] [("a", [("id", 1)])] :=
  ⟨(binder_execute_spec _).1 rfl,
   (binder_execute_spec (⟨[("a", ⟨[⟨[("id", 1)], []⟩]⟩)], fun _ => [], fun _ => none⟩ :
      Binder JsObj)).2.2.1 [("a", [("id", 1)])] rfl⟩

theorem unionGo_spec [DecidableEq α] (l : List (Entry α)) :
    ∀ acc : List (Entry α), ∃ app,
      l.foldl (fun acc2 oe =>
          if ∃ e ∈ acc2, e.data = oe.data then acc2 else acc2 ++ [oe]) acc = acc ++ app ∧
      app.Sublist l ∧
      (∀ e ∈ app, ∀ s ∈ acc, s.data ≠ e.data) ∧
      (∀ e ∈ l, (∀ s ∈ acc, s.data ≠ e.data) → ∃ a ∈ app, a.data = e.data) ∧
      app.Pairwise (fun x y => x.data ≠ y.data) := by
  induction l with
  | nil =>
    intro acc
    exact ⟨[], by simp, List.nil_sublist [], by simp, by simp, List.Pairwise.nil⟩
  | cons oe rest ih =>
    intro acc
    by_cases hex : ∃ e ∈ acc, e.data = oe.data
    · obtain ⟨app, hfold, hsub, hfresh, hcompl, hpair⟩ := ih acc
      refine ⟨app, ?_, hsub.cons oe, hfresh, ?_, hpair⟩
      · rw [List.foldl_cons, if_pos hex]
        exact hfold
      · intro e he hne
        rcases List.mem_cons.mp he with rfl | he2
        · obtain ⟨s, hs, hseq⟩ := hex
          exact absurd hseq (hne s hs)
        · exact hcompl e he2 hne
    · obtain ⟨app, hfold, hsub, hfresh, hcompl, hpair⟩ := ih (acc ++ [oe])
      refine ⟨oe :: app, ?_, hsub.cons₂ oe, ?_, ?_, ?_⟩
      · rw [List.foldl_cons, if_neg hex, hfold]
        simp
      · intro e he s hs
        rcases List.mem_cons.mp he with rfl | he2
        · exact fun hcontr => hex ⟨s, hs, hcontr⟩
        · exact hfresh e he2 s (List.mem_append_left _ hs)
      · intro e he hne
        rcases List.mem_cons.mp he with rfl | he2
        · exact ⟨e, List.mem_cons_self e app, rfl⟩
        · by_cases hoe : oe.data = e.data
          · exact ⟨oe, List.mem_cons_self oe app, hoe⟩
          · have hne2 : ∀ s ∈ acc ++ [oe], s.data ≠ e.data := by
              intro s hs
              rcases List.mem_append.mp hs with h1 | h1
              · exact hne s h1
              · rw [List.mem_singleton.mp h1]
                exact hoe
            obtain ⟨a, ha, haeq⟩ := hcompl e he2 hne2
            exact ⟨a, List.mem_cons_of_mem _ ha, haeq⟩
      · refine List.Pairwise.cons ?_ hpair
        intro a ha
        exact hfresh a ha oe (List.mem_append_right _ (List.mem_singleton.mpr rfl))

/-- C7: `union` with no `compareFn` (structural equality of data) appends
exactly those entries of `other` whose data has no equal counterpart already
in self at the moment they are examined — entries appended earlier in the
same call count, which for an equality comparator amounts to: no counterpart
in the original self, first occurrence per data value.  The appended entries
keep `other`'s relative order (a sublist of `other`) and self's existing
entries are left unchanged as a prefix. -/
theorem union_spec [DecidableEq α] (p other : Pool α) :
    ∃ app, (p.union other).entries = p.entries ++ app ∧
      app.Sublist other.entries ∧
      (∀ e ∈ app, ∀ s ∈ p.entries, s.data ≠ e.data) ∧
      (∀ e ∈ other.entries, (∀ s ∈ p.entries, s.data ≠ e.data) → ∃ a ∈ app, a.data = e.data) ∧
      app.Pairwise (fun x y => x.data ≠ y.data) :=
  unionGo_spec other.entries p.entries

/-- Witness for C7: a one-entry pool united with a pool sharing that entry's
data plus one new entry appends exactly the new entry. -/
theorem union_spec_witness :
    ∃ app, ((Pool.mk (α := JsObj) [⟨[("id", 1)], []⟩]).union
        ⟨[⟨[("id", 1)], []⟩, ⟨[("id", 2)], []⟩]⟩).entries = [⟨[("id", 1)], []⟩] ++ app ∧
      app.Sublist [⟨[("id", 1)], []⟩, ⟨[("id", 2)], []⟩] :=
  (union_spec (Pool.mk (α := JsObj) [⟨[("id", 1)], []⟩])
      ⟨[⟨[("id", 1)], []⟩, ⟨[("id", 2)], []⟩]⟩).elim
    (fun app h => ⟨app, h.1, h.2.1⟩)

theorem jsLookup_append (x y : List (String × Int)) (k : String) :
    jsLookup (x ++ y) k = (jsLookup x k).or (jsLookup y k) := by
  unfold jsLookup
  rw [List.find?_append]
  cases List.find? (fun p => p.1 == k) x <;> simp [Option.or]

theorem find?_filter_keeps (pr q : β → Bool) (l : List β)
    (h : ∀ x ∈ l, q x = true → pr x = true) :
    (l.filter pr).find? q = l.find? q := by
  induction l with
  | nil => rfl
  | cons x rest ih =>
    by_cases hq : q x = true
    · rw [List.filter_cons_of_pos (h x (List.mem_cons_self x rest) hq),
        List.find?_cons_of_pos _ hq, List.find?_cons_of_pos _ hq]
    · by_cases hp : pr x = true
      · rw [List.filter_cons_of_pos hp, List.find?_cons_of_neg _ hq,
          List.find?_cons_of_neg _ hq]
        exact ih (fun y hy => h y (List.mem_cons_of_mem _ hy))
      · rw [List.filter_cons_of_neg (by simpa using hp), List.find?_cons_of_neg _ hq]
        exact ih (fun y hy => h y (List.mem_cons_of_mem _ hy))

theorem jsLookup_mergeMeta (a b : Meta) (k : String) :
    jsLookup (mergeMeta a b) k = (jsLookup b k).or (jsLookup a k) := by
  unfold mergeMeta
  rw [jsLookup_append]
  cases hb : jsLookup b k with
  | some v =>
    have hex : ∃ q ∈ b, q.1 = k := by
      unfold jsLookup at hb
      rcases Option.map_eq_some'.mp hb with ⟨q, hq, _⟩
      exact ⟨q, List.mem_of_find?_eq_some hq, by simpa using List.find?_some hq⟩
    have hnone : jsLookup (a.filter (fun p => !(b.any (fun q => q.1 == p.1)))) k = none := by
      unfold jsLookup
      rw [Option.map_eq_none']
      rw [List.find?_eq_none]
      intro x hx
      have hkeep : (!(b.any (fun q => q.1 == x.1))) = true := (List.mem_filter.mp hx).2
      simp only [Bool.not_eq_true', List.any_eq_false, beq_iff_eq] at hkeep
      obtain ⟨q, hq, hqk⟩ := hex
      simp only [beq_iff_eq]
      intro hxk
      exact hkeep q hq (hqk.trans hxk.symm)
    rw [hnone]
    rfl
  | none =>
    have hbk : ∀ q ∈ b, ¬ q.1 = k := by
      unfold jsLookup at hb
      rw [Option.map_eq_none', List.find?_eq_none] at hb
      intro q hq
      simpa using hb q hq
    have hkeep : jsLookup (a.filter (fun p => !(b.any (fun q => q.1 == p.1)))) k
        = jsLookup a k := by
      unfold jsLookup
      rw [find?_filter_keeps]
      intro x hx hxk
      simp only [Bool.not_eq_true', List.any_eq_false, beq_iff_eq]
      intro q hq
      rw [beq_iff_eq] at hxk
      intro hcontr
      exact hbk q hq (hcontr.trans hxk)
    rw [hkeep]
    cases jsLookup a k <;> rfl

theorem setGo_none (key : String) (value : Int) (d : JsObj) (m : Meta) (l : List (Entry JsObj))
    (h : ∀ e ∈ l, jsLookup e.data key ≠ some value) :
    setGo key value d m l = none := by
  induction l with
  | nil => rfl
  | cons e rest ih =>
    have hc : (jsLookup e.data key == some value) = false := by
      simpa using h e (List.mem_cons_self e rest)
    simp only [setGo, hc, Bool.false_eq_true, if_false]
    rw [ih (fun y hy => h y (List.mem_cons_of_mem _ hy))]
    rfl

theorem setGo_found (key : String) (value : Int) (d : JsObj) (m : Meta)
    (l1 : List (Entry JsObj)) (e : Entry JsObj) (l2 : List (Entry JsObj))
    (hmatch : jsLookup e.data key = some value)
    (hno : ∀ x ∈ l1, jsLookup x.data key ≠ some value) :
    setGo key value d m (l1 ++ e :: l2)
      = some (⟨d, mergeMeta e.meta m⟩, l1 ++ ⟨d, mergeMeta e.meta m⟩ :: l2) := by
  induction l1 with
  | nil =>
    simp only [List.nil_append, setGo]
    rw [if_pos (by simpa using hmatch)]
  | cons x rest ih =>
    have hc : (jsLookup x.data key == some value) = false := by
      simpa using hno x (List.mem_cons_self x rest)
    simp only [List.cons_append, setGo, hc, Bool.false_eq_true, if_false, List.append_eq]
    rw [ih (fun y hy => hno y (List.mem_cons_of_mem _ hy))]
    rfl

/-- C9: when no existing entry's `data[key]` equals the match value, `set`
appends a brand-new entry (size grows by one), returns it and emits `add`;
when a first matching entry exists, `set` replaces that entry's data in
place, merges the given metadata over the existing metadata, returns the
updated entry, emits `set`, and leaves size and entry order unchanged. -/
theorem set_spec (p : Pool JsObj) (key : String) (value : Int) (d : JsObj) (m : Meta) :
    ((∀ e ∈ p.entries, jsLookup e.data key ≠ some value) →
      (p.set key value d m).2.1.entries = p.entries ++ [⟨d, m⟩] ∧
      (p.set key value d m).2.1.entries.length = p.entries.length + 1 ∧
      (p.set key value d m).1 = ⟨d, m⟩ ∧
      (p.set key value d m).2.2 = [Evt.add]) ∧
    (∀ l1 (e : Entry JsObj) l2, p.entries = l1 ++ e :: l2 →
      jsLookup e.data key = some value →
      (∀ x ∈ l1, jsLookup x.data key ≠ some value) →
      (p.set key value d m).2.1.entries = l1 ++ ⟨d, mergeMeta e.meta m⟩ :: l2 ∧
      (p.set key value d m).2.1.entries.length = p.entries.length ∧
      (p.set key value d m).1 = ⟨d, mergeMeta e.meta m⟩ ∧
      (p.set key value d m).2.2 = [Evt.set] ∧
      (∀ k, jsLookup ((p.set key value d m).1.meta) k
        = (jsLookup m k).or (jsLookup e.meta k))) := by
  constructor
  · intro h
    unfold Pool.set
    rw [setGo_none key value d m p.entries h]
    exact ⟨rfl, by simp [Pool.add], rfl, rfl⟩
  · intro l1 e l2 hsplit hmatch hno
    unfold Pool.set
    rw [hsplit, setGo_found key value d m l1 e l2 hmatch hno]
    refine ⟨rfl, by simp, rfl, rfl, ?_⟩
    intro k
    exact jsLookup_mergeMeta e.meta m k

/-- Witness for C9: on a one-entry pool, a non-matching `set` appends and
emits `add`; a matching `set` updates in place and emits `set`. -/
theorem set_spec_witness :
    ((Pool.mk (α := JsObj) [⟨[("id", 1)], []⟩]).set "id" 2 [("id", 2)] []).2.1.entries
      = [⟨[("id", 1)], []⟩, ⟨[("id", 2)], []⟩] ∧
    ((Pool.mk (α := JsObj) [⟨[("id", 1)], []⟩]).set "id" 2 [("id", 2)] []).2.2 = [Evt.add] ∧
    ((Pool.mk (α := JsObj) [⟨[("id", 1)], [("m", 7)]⟩]).set "id" 1 [("id", 1), ("x", 5)]
      [("n", 9)]).2.1.entries
      = [⟨[("id", 1), ("x", 5)], mergeMeta [("m", 7)] [("n", 9)]⟩] ∧
    ((Pool.mk (α := JsObj) [⟨[("id", 1)], [("m", 7)]⟩]).set "id" 1 [("id", 1), ("x", 5)]
      [("n", 9)]).2.2 = [Evt.set] := by
  have h1 := (set_spec (Pool.mk (α := JsObj) [⟨[("id", 1)], []⟩]) "id" 2 [("id", 2)] []).1
    (by decide)
  have h2 := (set_spec (Pool.mk (α := JsObj) [⟨[("id", 1)], [("m", 7)]⟩]) "id" 1
    [("id", 1), ("x", 5)] [("n", 9)]).2 [] ⟨[("id", 1)], [("m", 7)]⟩ [] rfl (by decide)
    (by simp)
  exact ⟨h1.1, h1.2.2.2, h2.1, h2.2.2.2.1⟩

theorem find?_congr_on (p q : β → Bool) (l : List β) (h : ∀ x ∈ l, p x = q x) :
    l.find? p = l.find? q := by
  induction l with
  | nil => rfl
  | cons x rest ih =>
    have hx := h x (List.mem_cons_self x rest)
    by_cases hq : q x = true
    · rw [List.find?_cons_of_pos _ (hx.trans hq), List.find?_cons_of_pos _ hq]
    · rw [List.find?_cons_of_neg _ (fun hc => hq (hx.symm.trans hc)),
        List.find?_cons_of_neg _ hq]
      exact ih (fun y hy => h y (List.mem_cons_of_mem _ hy))

theorem minKeep_spec (key : β → Int) (acc : β) (l : List β) :
    minKeep key acc l ∈ acc :: l ∧
    (∀ x ∈ acc :: l, key (minKeep key acc l) ≤ key x) ∧
    (acc :: l).find? (fun x => key x == key (minKeep key acc l)) = some (minKeep key acc l) := by
  induction l generalizing acc with
  | nil =>
    refine ⟨List.mem_cons_self acc [], ?_, ?_⟩
    · intro x hx
      rcases List.mem_cons.mp hx with rfl | h2
      · exact le_refl _
      · cases h2
    · simp [minKeep]
  | cons e rest ih =>
    have hstep : minKeep key acc (e :: rest)
        = minKeep key (if key e < key acc then e else acc) rest := rfl
    by_cases he : key e < key acc
    · have hacc2 : minKeep key acc (e :: rest) = minKeep key e rest := by
        rw [hstep, if_pos he]
      obtain ⟨hmem, hmin, hfind⟩ := ih e
      rw [hacc2]
      refine ⟨?_, ?_, ?_⟩
      · exact List.mem_cons_of_mem _ hmem
      · intro x hx
        rcases List.mem_cons.mp hx with rfl | h2
        · exact le_trans (le_trans (hmin e (List.mem_cons_self e rest)) (le_of_lt he)) (le_refl _)
        · exact hmin x h2
      · have hne : ¬ ((key acc == key (minKeep key e rest)) = true) := by
          have h1 : key (minKeep key e rest) ≤ key e := hmin e (List.mem_cons_self e rest)
          have h2 : key (minKeep key e rest) < key acc := lt_of_le_of_lt h1 he
          rw [beq_iff_eq]
          omega
        rw [List.find?_cons_of_neg (p := fun x => key x == key (minKeep key e rest)) _ hne]
        exact hfind
    · have hacc2 : minKeep key acc (e :: rest) = minKeep key acc rest := by
        rw [hstep, if_neg he]
      obtain ⟨hmem, hmin, hfind⟩ := ih acc
      rw [hacc2]
      have hax : key acc ≤ key e := by omega
      refine ⟨?_, ?_, ?_⟩
      · rcases List.mem_cons.mp hmem with h2 | h2
        · rw [h2]
          exact List.mem_cons_self acc _
        · exact List.mem_cons_of_mem _ (List.mem_cons_of_mem _ h2)
      · intro x hx
        rcases List.mem_cons.mp hx with rfl | h2
        · exact hmin x (List.mem_cons_self x rest)
        · rcases List.mem_cons.mp h2 with rfl | h3
          · exact le_trans (hmin acc (List.mem_cons_self acc rest)) hax
          · exact hmin x (List.mem_cons_of_mem _ h3)
      · by_cases hacc : (key acc == key (minKeep key acc rest)) = true
        · have h1 : (acc :: rest).find? (fun x => key x == key (minKeep key acc rest))
              = some acc := List.find?_cons_of_pos _ hacc
          have h2 : some acc = some (minKeep key acc rest) := h1.symm.trans hfind
          rw [List.find?_cons_of_pos (p := fun x => key x == key (minKeep key acc rest)) _ hacc]
          exact h2
        · have hrest : rest.find? (fun x => key x == key (minKeep key acc rest))
              = some (minKeep key acc rest) := by
            have h3 := hfind
            rw [List.find?_cons_of_neg (p := fun x => key x == key (minKeep key acc rest)) _
              hacc] at h3
            exact h3
          have hme : ¬ ((key e == key (minKeep key acc rest)) = true) := by
            intro hc
            apply hacc
            have h1 : key (minKeep key acc rest) ≤ key acc :=
              (ih acc).2.1 acc (List.mem_cons_self acc rest)
            rw [beq_iff_eq] at hc ⊢
            omega
          rw [List.find?_cons_of_neg (p := fun x => key x == key (minKeep key acc rest)) _ hacc,
            List.find?_cons_of_neg (p := fun x => key x == key (minKeep key acc rest)) _ hme]
          exact hrest

theorem minfold_congr (field : String) (es : List (Entry JsObj))
    (hdef : ∀ e ∈ es, (fieldVal field e).isSome) (l : List (Entry JsObj)) :
    ∀ acc : Entry JsObj, acc ∈ es → (∀ x ∈ l, x ∈ es) →
      l.foldl (fun mn entry =>
          if jsLt (fieldVal field entry) (fieldVal field mn) then entry else mn) acc
        = minKeep (minKey field) acc l := by
  induction l with
  | nil => intro acc _ _; rfl
  | cons e rest ih =>
    intro acc hacc hl
    have he : e ∈ es := hl e (List.mem_cons_self e rest)
    have hstep : (if jsLt (fieldVal field e) (fieldVal field acc) then e else acc)
        = (if minKey field e < minKey field acc then e else acc) := by
      rcases Option.isSome_iff_exists.mp (hdef e he) with ⟨ve, hve⟩
      rcases Option.isSome_iff_exists.mp (hdef acc hacc) with ⟨va, hva⟩
      unfold minKey
      rw [hve, hva]
      simp [jsLt]
    rw [List.foldl_cons, hstep]
    have hmem : (if minKey field e < minKey field acc then e else acc) ∈ es := by
      split <;> assumption
    exact ih _ hmem (fun x hx => hl x (List.mem_cons_of_mem _ hx))

/-- C5: on a non-empty candidate list whose entries all resolve the field
(preferring `data[field]` when defined there — even a `0` value — and
otherwise reading `meta[field]`), `minBy(field)` returns the first candidate
attaining the smallest resolved value (ties broken by first occurrence); on
an empty list it returns absent without erroring. -/
theorem minBy_spec (field : String) (es : List (Entry JsObj)) :
    (Selectors.minBy field ([] : List (Entry JsObj)) = none) ∧
    (∀ (e : Entry JsObj) v, jsLookup e.data field = some v → fieldVal field e = some v) ∧
    (es ≠ [] → (∀ e ∈ es, (fieldVal field e).isSome) →
      ∃ m, Selectors.minBy field es = some m ∧ m ∈ es ∧
        (∀ e ∈ es, jsLt (fieldVal field e) (fieldVal field m) = false) ∧
        es.find? (fun e => fieldVal field e == fieldVal field m) = some m) := by
  refine ⟨rfl, ?_, ?_⟩
  · intro e v h
    unfold fieldVal
    rw [h]
  · intro hne hdef
    obtain ⟨e0, rest, rfl⟩ := List.exists_cons_of_ne_nil hne
    obtain ⟨hmem, hmin, hfind⟩ := minKeep_spec (minKey field) e0 rest
    have hfold2 : rest.foldl (fun mn entry =>
        if jsLt (fieldVal field entry) (fieldVal field mn) then entry else mn) e0
        = minKeep (minKey field) e0 rest :=
      minfold_congr field (e0 :: rest) hdef rest e0 (List.mem_cons_self e0 rest)
        (fun x hx => List.mem_cons_of_mem _ hx)
    generalize hgen : minKeep (minKey field) e0 rest = m at hmem hmin hfind hfold2
    have hfold : Selectors.minBy field (e0 :: rest) = some m := by
      show some (rest.foldl (fun mn entry =>
        if jsLt (fieldVal field entry) (fieldVal field mn) then entry else mn) e0) = some m
      rw [hfold2]
    refine ⟨m, hfold, hmem, ?_, ?_⟩
    · intro e he
      rcases Option.isSome_iff_exists.mp (hdef e he) with ⟨ve, hve⟩
      rcases Option.isSome_iff_exists.mp (hdef m hmem) with ⟨vm, hvm⟩
      have hke : minKey field e = ve := by
        unfold minKey
        rw [hve]
        rfl
      have hkm : minKey field m = vm := by
        unfold minKey
        rw [hvm]
        rfl
      have h1 : vm ≤ ve := by
        rw [← hkm, ← hke]
        exact hmin e he
      rw [hve, hvm]
      simp only [jsLt, decide_eq_false_iff_not]
      omega
    · rw [find?_congr_on _ (fun x => minKey field x == minKey field m)]
      · exact hfind
      · intro x hx
        rcases Option.isSome_iff_exists.mp (hdef x hx) with ⟨vx, hvx⟩
        rcases Option.isSome_iff_exists.mp (hdef m hmem) with ⟨vm, hvm⟩
        have hkx : minKey field x = vx := by
          unfold minKey
          rw [hvx]
          rfl
        have hkm : minKey field m = vm := by
          unfold minKey
          rw [hvm]
          rfl
        rw [hvx, hvm, hkx, hkm]
        rfl

/-- Witness for C5 on values `[3, 1, 2]`: the minimum-value entry exists and
is a member of the list. -/
theorem minBy_spec_witness :
    ∃ m, Selectors.minBy "v" [⟨[("v", 3)], []⟩, ⟨[("v", 1)], []⟩, ⟨[("v", 2)], []⟩] = some m ∧
      m ∈ [(⟨[("v", 3)], []⟩ : Entry JsObj), ⟨[("v", 1)], []⟩, ⟨[("v", 2)], []⟩] :=
  ((minBy_spec "v" [⟨[("v", 3)], []⟩, ⟨[("v", 1)], []⟩, ⟨[("v", 2)], []⟩]).2.2
    (by decide) (by decide)).elim
    (fun m h => ⟨m, h.1, h.2.1⟩)

theorem weightedGo_mem (w : Entry α → ℚ) (rem : ℚ) (l : List (Entry α)) (m : Entry α)
    (h : weightedGo w rem l = some m) : m ∈ l := by
  induction l generalizing rem with
  | nil => cases h
  | cons e rest ih =>
    simp only [weightedGo] at h
    split at h
    · rw [← Option.some_inj.mp h]
      exact List.mem_cons_self e rest
    · exact List.mem_cons_of_mem _ (ih _ h)

theorem random_mem_of_bounds (r : ℚ) (es : List (Entry α)) (hne : es ≠ [])
    (h0 : 0 ≤ r) (h1 : r < 1) : ∃ m ∈ es, Selectors.random r es = some m := by
  have hlen : es.length ≠ 0 := fun h => hne (List.length_eq_zero.mp h)
  have hlq : (0 : ℚ) < (es.length : ℚ) := by
    have : 0 < es.length := Nat.pos_of_ne_zero hlen
    exact_mod_cast this
  have hidx : (⌊r * (es.length : ℚ)⌋).toNat < es.length := by
    have h2 : r * (es.length : ℚ) < (es.length : ℚ) := by
      calc r * (es.length : ℚ) < 1 * (es.length : ℚ) := by
            exact mul_lt_mul_of_pos_right h1 hlq
        _ = (es.length : ℚ) := one_mul _
    have h3 : ⌊r * (es.length : ℚ)⌋ < (es.length : Int) := by
      rw [Int.floor_lt]
      exact_mod_cast h2
    have h4 : (0 : Int) ≤ ⌊r * (es.length : ℚ)⌋ := by
      apply Int.floor_nonneg.mpr
      positivity
    omega
  refine ⟨es[(⌊r * (es.length : ℚ)⌋).toNat], List.getElem_mem hidx, ?_⟩
  unfold Selectors.random
  rw [if_neg hlen]
  exact List.getElem?_eq_getElem hidx

/-- C6: `weighted(weightFn)` returns absent exactly when the candidate list
is empty; when the total weight is exactly zero it falls back to uniform
random selection over the same candidates; and any returned entry is one of
the candidates (non-empty input never yields absent). -/
theorem weighted_spec (w : Entry α → ℚ) (r : ℚ) (es : List (Entry α))
    (h0 : 0 ≤ r) (h1 : r < 1) :
    (Selectors.weighted w r es = none ↔ es = []) ∧
    ((es.map w).foldl (· + ·) 0 = 0 → Selectors.weighted w r es = Selectors.random r es) ∧
    (∀ m, Selectors.weighted w r es = some m → m ∈ es) := by
  by_cases hne : es = []
  · subst hne
    refine ⟨iff_of_true rfl rfl, fun _ => rfl, ?_⟩
    intro m hm
    exact Option.noConfusion hm
  · have hlen : es.length ≠ 0 := fun h => hne (List.length_eq_zero.mp h)
    refine ⟨?_, ?_, ?_⟩
    · apply iff_of_false _ hne
      unfold Selectors.weighted
      rw [if_neg hlen]
      by_cases htot : (es.map w).foldl (· + ·) 0 = 0
      · rw [if_pos htot]
        obtain ⟨m, _, hsome⟩ := random_mem_of_bounds r es hne h0 h1
        rw [hsome]
        exact fun h => Option.noConfusion h
      · rw [if_neg htot]
        cases hgo : weightedGo w (r * (es.map w).foldl (· + ·) 0) es with
        | some e => exact fun h => Option.noConfusion h
        | none =>
          intro h
          exact hne (List.getLast?_eq_none_iff.mp h)
    · intro htot
      unfold Selectors.weighted
      rw [if_neg hlen, if_pos htot]
    · intro m hm
      unfold Selectors.weighted at hm
      rw [if_neg hlen] at hm
      by_cases htot : (es.map w).foldl (· + ·) 0 = 0
      · rw [if_pos htot] at hm
        obtain ⟨m2, hmem2, hsome⟩ := random_mem_of_bounds r es hne h0 h1
        rw [hsome] at hm
        rw [← Option.some_inj.mp hm]
        exact hmem2
      · rw [if_neg htot] at hm
        cases hgo : weightedGo w (r * (es.map w).foldl (· + ·) 0) es with
        | some e =>
          rw [hgo] at hm
          rw [← Option.some_inj.mp hm]
          exact weightedGo_mem w _ es e hgo
        | none =>
          rw [hgo] at hm
          exact List.mem_of_getLast?_eq_some hm

/-- Witness for C6 with draw `1/2`: a two-candidate list with zero weights
falls back to `random`, and the empty list yields absent. -/
theorem weighted_spec_witness :
    (Selectors.weighted (fun _ => 0) (1/2)
        [(⟨[("id", 1)], []⟩ : Entry JsObj), ⟨[("id", 2)], []⟩]
      = Selectors.random (1/2) [(⟨[("id", 1)], []⟩ : Entry JsObj), ⟨[("id", 2)], []⟩]) ∧
    (Selectors.weighted (fun _ => 0) (1/2) ([] : List (Entry JsObj)) = none) :=
  ⟨(weighted_spec (fun _ => 0) (1/2)
      [(⟨[("id", 1)], []⟩ : Entry JsObj), ⟨[("id", 2)], []⟩]
      (by norm_num) (by norm_num)).2.1 (by norm_num),
   (weighted_spec (fun _ => 0) (1/2) ([] : List (Entry JsObj))
      (by norm_num) (by norm_num)).1.mpr rfl⟩

end Pools

namespace ArrRef

/-- C8: a Query holds a live reference to the Pool's current entries array:
an entry added via `add` after `query()` appears in that query's
materialization, whereas `remove` replaces the entries array, so entries
removed after `query()` still appear in the old query's results (a fresh
query sees the filtered array). -/
theorem query_live_reference (s : St α) (p : PoolR) (d : α) (m : Pools.Meta) (pred : α → Bool)
    (hwf : s.poolArr p.pid ≠ s.next) :
    ((⟨d, m⟩ : Pools.Entry α) ∈ (p.query s).materialize (p.add s d m)) ∧
    ((p.query s).materialize (p.remove s pred).1 = s.arrays (s.poolArr p.pid)) ∧
    (∀ e ∈ s.arrays (s.poolArr p.pid), pred e.data = true →
      e ∈ (p.query s).materialize (p.remove s pred).1) ∧
    ((p.query (p.remove s pred).1).materialize (p.remove s pred).1
      = (s.arrays (s.poolArr p.pid)).filter (fun e => !pred e.data)) := by
  have hremove : (p.query s).materialize (p.remove s pred).1 = s.arrays (s.poolArr p.pid) := by
    show (if s.poolArr p.pid = s.next then
        (s.arrays (s.poolArr p.pid)).filter (fun e => !pred e.data)
      else s.arrays (s.poolArr p.pid)) = s.arrays (s.poolArr p.pid)
    rw [if_neg hwf]
  refine ⟨?_, hremove, ?_, ?_⟩
  · show (⟨d, m⟩ : Pools.Entry α) ∈ (if s.poolArr p.pid = s.poolArr p.pid then
        s.arrays (s.poolArr p.pid) ++ [⟨d, m⟩]
      else s.arrays (s.poolArr p.pid))
    rw [if_pos rfl]
    exact List.mem_append_right _ (List.mem_singleton.mpr rfl)
  · intro e he _
    rw [hremove]
    exact he
  · show (p.remove s pred).1.arrays ((p.remove s pred).1.poolArr p.pid)
      = (s.arrays (s.poolArr p.pid)).filter (fun e => !pred e.data)
    have h2 : (p.remove s pred).1.poolArr p.pid = s.next := by
      show (if p.pid = p.pid then s.next else s.poolArr p.pid) = s.next
      rw [if_pos rfl]
    rw [h2]
    show (if s.next = s.next then (s.arrays (s.poolArr p.pid)).filter (fun e => !pred e.data)
      else s.arrays s.next) = _
    rw [if_pos rfl]

/-- Witness for C8 on a concrete one-pool state: a later `add` is visible to
an earlier query, and entries removed later still materialize for it. -/
theorem query_live_reference_witness :
    ((⟨7, []⟩ : Pools.Entry Int) ∈
      (PoolR.query ⟨0⟩ ⟨fun a => if a = 0 then [⟨5, []⟩] else [], fun _ => 0, 1⟩).materialize
        (PoolR.add ⟨0⟩ ⟨fun a => if a = 0 then [⟨5, []⟩] else [], fun _ => 0, 1⟩ 7 [])) ∧
    ((PoolR.query ⟨0⟩ ⟨fun a => if a = 0 then [⟨5, []⟩] else [], fun _ => 0, 1⟩).materialize
        (PoolR.remove ⟨0⟩ ⟨fun a => if a = 0 then [⟨5, []⟩] else [], fun _ => 0, 1⟩
          (fun x => decide (x = 5))).1
      = [⟨5, []⟩]) :=
  ⟨(query_live_reference ⟨fun a => if a = 0 then [⟨5, []⟩] else [], fun _ => 0, 1⟩ ⟨0⟩ 7 []
      (fun x => decide (x = 5)) (by decide)).1,
   (query_live_reference ⟨fun a => if a = 0 then [⟨5, []⟩] else [], fun _ => 0, 1⟩ ⟨0⟩ 7 []
      (fun x => decide (x = 5)) (by decide)).2.1⟩

end ArrRef

namespace MetaRef

theorem queryToPool_entries (p : Pool) : (p.queryToPool).entries = p.entries := by
  unfold Pool.queryToPool
  suffices h : ∀ (l acc : List Entry),
      (l.foldl (fun (np : Pool) (e : Entry) => np.add e.data e.meta) ⟨acc⟩).entries = acc ++ l by
    simpa using h p.entries []
  intro l
  induction l with
  | nil => intro acc; simp
  | cons e rest ih =>
    intro acc
    calc (List.foldl (fun np e2 => np.add e2.data e2.meta) (⟨acc⟩ : Pool) (e :: rest)).entries
        = (List.foldl (fun np e2 => np.add e2.data e2.meta) (⟨acc ++ [e]⟩ : Pool) rest).entries :=
          rfl
      _ = (acc ++ [e]) ++ rest := ih (acc ++ [e])
      _ = acc ++ e :: rest := by simp

/-- C3 (amended): `query().toPool()` re-adds each materialized entry's data
and metadata, and the metadata is passed by reference, so the metadata
values are equal immediately after the call, but the new pool's entries
share their metadata objects with the source: writing a key through a new
pool entry's metadata reference is visible through the corresponding source
entry's metadata reference. -/
theorem toPool_meta_shared (p : Pool) (h : Heap) :
    ((p.queryToPool).entries.map Entry.data = p.entries.map Entry.data) ∧
    ((p.queryToPool).entries.map (fun e => h e.meta) = p.entries.map (fun e => h e.meta)) ∧
    ((p.queryToPool).entries.map Entry.meta = p.entries.map Entry.meta) ∧
    (∀ (i : Nat) (enew esrc : Entry), (p.queryToPool).entries[i]? = some enew →
      p.entries[i]? = some esrc →
      ∀ k v, Pools.jsLookup (writeMeta h enew.meta k v esrc.meta) k = some v) := by
  have he := queryToPool_entries p
  refine ⟨by rw [he], by rw [he], by rw [he], ?_⟩
  intro i enew esrc h1 h2 k v
  rw [he] at h1
  have heq : enew = esrc := Option.some_inj.mp (h1.symm.trans h2)
  show Pools.jsLookup
    (if esrc.meta = enew.meta then (k, v) :: h esrc.meta else h esrc.meta) k = some v
  rw [if_pos (by rw [heq])]
  unfold Pools.jsLookup
  rw [List.find?_cons_of_pos _ (by simp)]
  rfl

/-- Witness for C3's amended sharing statement at a concrete pool and heap. -/
theorem toPool_meta_shared_witness :
    Pools.jsLookup
      (writeMeta (fun _ => [("k", 1)])
        ((((Pool.mk [⟨[("id", 1)], 0⟩]).queryToPool).entries.getD 0 ⟨[], 99⟩).meta) "k" 2
        ((⟨[("id", 1)], 0⟩ : Entry).meta)) "k" = some 2 :=
  (toPool_meta_shared (Pool.mk [⟨[("id", 1)], 0⟩]) (fun _ => [("k", 1)])).2.2.2
    0 ⟨[("id", 1)], 0⟩ ⟨[("id", 1)], 0⟩ rfl rfl "k" 2

/-- C3 counterexample: metadata is shared by reference, so mutating the new
pool's metadata after `toPool` DOES affect the source pool's metadata: the
source entry's metadata read changes from `1` to `2` after a write through
the new pool's entry. -/
theorem toPool_meta_mutation_cex :
    (((Pool.mk [⟨[("id", 1)], 0⟩]).queryToPool).entries = [⟨[("id", 1)], 0⟩]) ∧
    (Pools.jsLookup ((fun _ => [("k", 1)] : Heap) ((⟨[("id", 1)], 0⟩ : Entry).meta)) "k"
      = some 1) ∧
    (Pools.jsLookup
      (writeMeta (fun _ => [("k", 1)])
        ((((Pool.mk [⟨[("id", 1)], 0⟩]).queryToPool).entries.getD 0 ⟨[], 99⟩).meta) "k" 2
        ((⟨[("id", 1)], 0⟩ : Entry).meta)) "k" = some 2) ∧
    ((some 2 : Option Int) ≠ some 1) := by
  refine ⟨?_, ?_, ?_, ?_⟩ <;> decide

end MetaRef

namespace Pools

theorem abLe_iff (x y : Entry TwoField) :
    abLe x y = true ↔
      (x.data.a < y.data.a ∨ (x.data.a = y.data.a ∧ y.data.b ≤ x.data.b)) := by
  simp only [abLe, abSorters, chainCmp, fieldCmp, decide_eq_true_eq]
  split_ifs <;> omega

theorem abLe_trans (x y z : Entry TwoField) (h1 : abLe x y) (h2 : abLe y z) : abLe x z := by
  rw [abLe_iff] at h1 h2 ⊢
  omega

theorem abLe_total (x y : Entry TwoField) : abLe x y || abLe y x := by
  rw [Bool.or_eq_true, abLe_iff, abLe_iff]
  omega

theorem orderBy_materialize (p : Pool TwoField) :
    ((p.query.orderByField TwoField.a .asc).orderByField TwoField.b .desc).materialize
      = p.entries.mergeSort abLe := by
  unfold Query.materialize Query.preSlice
  have hcond : ¬ (((p.query.orderByField TwoField.a .asc).orderByField
        TwoField.b .desc).offsetCount > 0 ∨
      ((p.query.orderByField TwoField.a .asc).orderByField TwoField.b .desc).limitCount
        ≠ none) := by
    rintro (hc | hc)
    · have h0 : ((p.query.orderByField TwoField.a .asc).orderByField
          TwoField.b .desc).offsetCount = (0 : Int) := rfl
      rw [h0] at hc
      exact absurd hc (by omega)
    · exact hc rfl
  rw [if_neg hcond]
  rfl

/-- C4: after `orderBy(a, asc)` then `orderBy(b, desc)`, materialization is a
permutation of the entries ordered primarily by field `a` ascending, among
equal `a` by field `b` descending, and entries equal on both fields keep
their original relative order (stability, stated as filter-preservation per
key class); the first registered comparator is primary and later ones are
tie-breakers, as captured by the lexicographic pairwise order. -/
theorem orderBy_priority_spec (p : Pool TwoField) :
    ((p.query.orderByField TwoField.a .asc).orderByField TwoField.b .desc).materialize.Perm
      p.entries ∧
    ((p.query.orderByField TwoField.a .asc).orderByField TwoField.b .desc).materialize.Pairwise
      (fun x y => x.data.a < y.data.a ∨ (x.data.a = y.data.a ∧ y.data.b ≤ x.data.b)) ∧
    (∀ va vb,
      ((p.query.orderByField TwoField.a .asc).orderByField
          TwoField.b .desc).materialize.filter
          (fun e => e.data.a == va && e.data.b == vb)
        = p.entries.filter (fun e => e.data.a == va && e.data.b == vb)) ∧
    ((p.query.orderByField TwoField.a .asc).orderByField TwoField.b .desc).toArray
      = (((p.query.orderByField TwoField.a .asc).orderByField
          TwoField.b .desc).materialize).map Entry.data := by
  have hmat := orderBy_materialize p
  have htrans : ∀ (x y z : Entry TwoField), abLe x y → abLe y z → abLe x z := abLe_trans
  have htotal : ∀ (x y : Entry TwoField), abLe x y || abLe y x := abLe_total
  refine ⟨?_, ?_, ?_, rfl⟩
  · rw [hmat]
    exact List.mergeSort_perm p.entries abLe
  · rw [hmat]
    exact (List.sorted_mergeSort htrans htotal p.entries).imp (fun h => (abLe_iff _ _).mp h)
  · intro va vb
    rw [hmat]
    have hkeep : ∀ x ∈ p.entries.filter (fun e => e.data.a == va && e.data.b == vb),
        x.data.a = va ∧ x.data.b = vb := by
      intro x hx
      have h2 := (List.mem_filter.mp hx).2
      simp only [Bool.and_eq_true, beq_iff_eq] at h2
      exact h2
    have hpair : (p.entries.filter (fun e => e.data.a == va && e.data.b == vb)).Pairwise
        (fun x y => abLe x y) := by
      apply List.pairwise_of_forall_mem_list
      intro x hx y hy
      obtain ⟨hxa, hxb⟩ := hkeep x hx
      obtain ⟨hya, hyb⟩ := hkeep y hy
      rw [abLe_iff]
      omega
    have hsub : List.Sublist (p.entries.filter (fun e => e.data.a == va && e.data.b == vb))
        (p.entries.mergeSort abLe) :=
      List.sublist_mergeSort htrans htotal hpair (List.filter_sublist _)
    have hperm : ((p.entries.mergeSort abLe).filter
          (fun e => e.data.a == va && e.data.b == vb)).Perm
        (p.entries.filter (fun e => e.data.a == va && e.data.b == vb)) :=
      (List.mergeSort_perm p.entries abLe).filter _
    have hsub2 : List.Sublist (p.entries.filter (fun e => e.data.a == va && e.data.b == vb))
        ((p.entries.mergeSort abLe).filter (fun e => e.data.a == va && e.data.b == vb)) := by
      have h3 := hsub.filter (fun e => e.data.a == va && e.data.b == vb)
      rwa [List.filter_eq_self.mpr
        (fun x hx => (List.mem_filter.mp hx).2)] at h3
    exact (hsub2.eq_of_length hperm.length_eq.symm).symm

end Pools



